import Mathlib

/-
Verification development for a small grep-style regular-expression engine
(pattern compiler plus matching engine).  The engine operates on Rust string
slices, which are UTF-8 byte sequences indexed by byte offsets, so the
embedding models an input string as a list of characters together with the
byte width of each character (Char.utf8Size).  Offsets in all definitions
below are byte offsets.

The matching engine contains a while loop (the quantifier repetition loop)
that does not terminate on all inputs, and string slicing operations that can
panic.  The embedding therefore returns results in a three-valued type:
a normal return, a panic, or divergence (modelled with a fuel counter that
only the quantifier loop consumes; every other construct is fuel
independent).
-/

/-- Total UTF-8 byte length of a character list, as in the length method of a
Rust string slice. -/
def utf8Len : List Char → Nat
  | [] => 0
  | c :: rest => c.utf8Size + utf8Len rest

/-- Model of the Rust expression full.get(i..): returns the suffix starting at
byte offset i when i is at most the byte length and falls on a character
boundary, and none otherwise. -/
def strGet : List Char → Nat → Option (List Char)
  | s, 0 => some s
  | [], _ + 1 => none
  | c :: rest, i + 1 =>
    if i + 1 < c.utf8Size then none
    else strGet rest (i + 1 - c.utf8Size)

/-- Model of full.get(start..).unwrap_or_default(): the suffix at a byte
offset, defaulting to the empty string when the offset is out of range or not
on a character boundary. -/
def suffixAt (full : List Char) (start : Nat) : List Char :=
  (strGet full start).getD []

/-- The character-class kinds of the engine. -/
inductive RegexClass where
  | Digit
  | Alphanumeric
deriving DecidableEq, Repr

/-- One compiled pattern element, mirroring the RegexElement enum of the
source. -/
inductive RegexElement where
  | Wildcard
  | Literal (c : Char)
  | Class (k : RegexClass)
  | CharGroup (is_positive : Bool) (options : List Char)
  | StartAnchor
  | EndAnchor
  | Quantifier (min : Nat) (max : Option Nat) (content : RegexElement)
deriving DecidableEq, Repr

/-- Outcome of one element-matching call: divergence of the internal
repetition loop, a Rust panic, or a normal return carrying the optional
matched byte length. -/
inductive MRes where
  | diverge
  | panic
  | ok (r : Option Nat)
deriving DecidableEq, Repr

/-- Outcome of the quantifier repetition loop: divergence, a panic raised by
the content matcher, or normal loop exit with the final repetition count and
the final local end index. -/
inductive QRes where
  | diverge
  | panic
  | done (count endIdx : Nat)
deriving DecidableEq, Repr

/-- Outcome of sequence matching and of the top-level search: divergence,
a panic, or a boolean. -/
inductive BRes where
  | diverge
  | panic
  | ok (b : Bool)
deriving DecidableEq, Repr

/-- The predicate of a character class: is_ascii_digit for Digit, and
is_ascii_alphanumeric or underscore for Alphanumeric. -/
def classHolds : RegexClass → Char → Bool
  | .Digit, c => c.isDigit
  | .Alphanumeric, c => c.isAlphanum || c = '_'

/-- Model of the Rust slice expression taking the first byte of a nonempty
string suffix: returns matched length 1 when the first character is a single
UTF-8 byte, and panics otherwise (a byte slice boundary violation). -/
def slice1 : List Char → MRes
  | [] => .panic
  | c :: _ => if c.utf8Size = 1 then .ok (some 1) else .panic

/-- The quantifier repetition loop of the source.  The argument m is the
content matcher at a local byte index; count and endIdx are the loop
variables match_count and end_index.  Each iteration consumes one unit of
fuel; running out of fuel models divergence.  After a successful repetition
the count is incremented, the end index advances by the matched length, and
the loop breaks when the optional max equals the new count. -/
def quantRun (m : Nat → MRes) (mx : Option Nat) : Nat → Nat → Nat → QRes
  | 0, _, _ => .diverge
  | fuel + 1, count, endIdx =>
    match m endIdx with
    | .diverge => .diverge
    | .panic => .panic
    | .ok none => .done count endIdx
    | .ok (some len) =>
      if mx = some (count + 1) then .done (count + 1) (endIdx + len)
      else quantRun m mx fuel (count + 1) (endIdx + len)

/-- The element matcher of the source: given an element, the full input and a
byte offset, it takes the suffix at the offset (defaulting to empty when the
offset is out of range) and attempts to match at its beginning, returning the
matched byte length on success.  A successful single-character match slices
one byte off the suffix and therefore panics on a multi-byte character; a
successful quantifier match slices end_index bytes off the suffix and panics
when end_index is not a character boundary of the suffix. -/
def RegexElement.matches (e : RegexElement) (fuel : Nat) (full : List Char) (start : Nat) : MRes :=
  match e with
  | .StartAnchor => .ok (if start = 0 then some 0 else none)
  | .EndAnchor =>
    match suffixAt full start with
    | [] => .ok (some 0)
    | _ :: _ => .ok none
  | .Wildcard =>
    match suffixAt full start with
    | [] => .ok none
    | c :: t => slice1 (c :: t)
  | .Literal ch =>
    match suffixAt full start with
    | [] => .ok none
    | c :: t => if c = ch then slice1 (c :: t) else .ok none
  | .Class k =>
    match suffixAt full start with
    | [] => .ok none
    | c :: t => if classHolds k c then slice1 (c :: t) else .ok none
  | .CharGroup is_positive options =>
    match suffixAt full start with
    | [] => .ok none
    | c :: t => if options.contains c = is_positive then slice1 (c :: t) else .ok none
  | .Quantifier mn mx content =>
    match quantRun (fun i => content.matches fuel (suffixAt full start) i) mx fuel 0 0 with
    | .diverge => .diverge
    | .panic => .panic
    | .done count endIdx =>
      if mn ≤ count then
        if (strGet (suffixAt full start) endIdx).isSome then .ok (some endIdx) else .panic
      else .ok none

/-- The sequence-matching inner loop of the top-level matcher: walks the
elements in order from a start offset.  Each element is matched at the start
offset clamped to the input byte length, as in the source; after each element
call the source slices the input at the unclamped offset for a trace message,
which panics when the offset is not a character boundary.  On a successful
element match the offset advances by the matched length; on element failure
the whole attempt fails. -/
def tryMatchFrom (fuel : Nat) (s : List Char) : List RegexElement → Nat → BRes
  | [], _ => .ok true
  | e :: rest, start =>
    match e.matches fuel s (min start (utf8Len s)) with
    | .diverge => .diverge
    | .panic => .panic
    | .ok res =>
      if (strGet s start).isSome then
        match res with
        | some len => tryMatchFrom fuel s rest (start + len)
        | none => .ok false
      else .panic

/-- The offset loop of the top-level matcher: tries successive start offsets,
k is the number of offsets left to try.  Stops at the first successful
attempt. -/
def searchAux (fuel : Nat) (p : List RegexElement) (s : List Char) : Nat → Nat → BRes
  | _, 0 => .ok false
  | start, k + 1 =>
    match tryMatchFrom fuel s p start with
    | .diverge => .diverge
    | .panic => .panic
    | .ok true => .ok true
    | .ok false => searchAux fuel p s (start + 1) k

/-- The top-level matcher of the source: tries every start offset from 0 to
the input byte length inclusive, in increasing order. -/
def Regex.matches (fuel : Nat) (p : List RegexElement) (s : List Char) : BRes :=
  searchAux fuel p s 0 (utf8Len s + 1)

/-- The compile-time failures of the source, one constructor per bail site:
an unknown escape character, a trailing backslash, and an empty element
sequence. -/
inductive CompileError where
  | UnknownEscape (c : Char)
  | DanglingEscape
  | EmptyPattern
deriving DecidableEq, Repr

/-- The quantifier-suffix step of the compiler: after producing an atomic
element, peek the next pattern character; a plus, star or question mark is
consumed and wraps the element in a Quantifier with the corresponding
bounds. -/
def applyQuantifier (atom : RegexElement) (rest : List Char) : RegexElement × List Char :=
  if rest.head? = some '+' then (.Quantifier 1 none atom, rest.tail)
  else if rest.head? = some '*' then (.Quantifier 0 none atom, rest.tail)
  else if rest.head? = some '?' then (.Quantifier 0 (some 1) atom, rest.tail)
  else (atom, rest)

/-- Model of take_while on the pattern iterator for a character group: the
characters before the next closing bracket, and the remaining characters
after (and excluding) that closing bracket.  When no closing bracket exists
the whole remainder is consumed. -/
def takeUntilRB : List Char → List Char × List Char
  | [] => ([], [])
  | c :: rest =>
    if c = ']' then ([], rest)
    else
      let p := takeUntilRB rest
      (c :: p.1, p.2)

/-- One read step of the compiler: consume one atomic unit from the pattern
characters (or report end of pattern), then apply the quantifier-suffix
peek.  Mirrors RegexElement::read of the source, including its error
cases. -/
def RegexElement.read : List Char → Except CompileError (Option (RegexElement × List Char))
  | [] => .ok none
  | c :: rest =>
    if c = '.' then .ok (some (applyQuantifier .Wildcard rest))
    else if c = '\\' then
      match rest with
      | [] => .error .DanglingEscape
      | c2 :: r =>
        if c2 = 'd' then .ok (some (applyQuantifier (.Class .Digit) r))
        else if c2 = 'w' then .ok (some (applyQuantifier (.Class .Alphanumeric) r))
        else .error (.UnknownEscape c2)
    else if c = '[' then
      let pr := if rest.head? = some '^' then (false, rest.tail) else (true, rest)
      let q := takeUntilRB pr.2
      .ok (some (applyQuantifier (.CharGroup pr.1 q.1) q.2))
    else if c = '^' then .ok (some (applyQuantifier .StartAnchor rest))
    else if c = '$' then .ok (some (applyQuantifier .EndAnchor rest))
    else .ok (some (applyQuantifier (.Literal c) rest))

/-- The tail of a list is no longer than the list. -/
theorem tailLenLe (l : List Char) : l.tail.length ≤ l.length := by
  cases l <;> simp

/-- The remainder returned by takeUntilRB is no longer than its input. -/
theorem takeUntilRB_length (l : List Char) : (takeUntilRB l).2.length ≤ l.length := by
  induction l with
  | nil => simp [takeUntilRB]
  | cons c rest ih =>
    simp only [takeUntilRB]
    by_cases h : c = ']'
    · simp [h]
    · simp only [if_neg h]
      exact Nat.le_succ_of_le ih

/-- The remainder returned by applyQuantifier is no longer than its input. -/
theorem applyQuantifier_length (a : RegexElement) (l : List Char) :
    (applyQuantifier a l).2.length ≤ l.length := by
  unfold applyQuantifier
  by_cases h1 : l.head? = some '+'
  · simp only [h1, if_pos rfl]
    exact tailLenLe l
  · simp only [if_neg h1]
    by_cases h2 : l.head? = some '*'
    · simp only [h2, if_pos rfl]
      exact tailLenLe l
    · simp only [if_neg h2]
      by_cases h3 : l.head? = some '?'
      · simp only [h3, if_pos rfl]
        exact tailLenLe l
      · simp [if_neg h3]

/-- A successful read step strictly shrinks the list of remaining pattern
characters. -/
theorem read_length {s : List Char} {e : RegexElement} {rest : List Char}
    (h : RegexElement.read s = .ok (some (e, rest))) : rest.length < s.length := by
  match s with
  | [] => simp [RegexElement.read] at h
  | c :: r =>
    simp only [RegexElement.read] at h
    by_cases h1 : c = '.'
    · simp only [if_pos h1, Except.ok.injEq, Option.some.injEq] at h
      have := applyQuantifier_length RegexElement.Wildcard r
      rw [h] at this
      exact Nat.lt_succ_of_le this
    · simp only [if_neg h1] at h
      by_cases h2 : c = '\\'
      · simp only [if_pos h2] at h
        match r with
        | [] => simp at h
        | c2 :: r2 =>
          simp only at h
          by_cases hd : c2 = 'd'
          · simp only [if_pos hd, Except.ok.injEq, Option.some.injEq] at h
            have := applyQuantifier_length (RegexElement.Class .Digit) r2
            rw [h] at this
            have h7 : rest.length ≤ r2.length := this
            simp only [List.length_cons]
            omega
          · simp only [if_neg hd] at h
            by_cases hw : c2 = 'w'
            · simp only [if_pos hw, Except.ok.injEq, Option.some.injEq] at h
              have := applyQuantifier_length (RegexElement.Class .Alphanumeric) r2
              rw [h] at this
              have h7 : rest.length ≤ r2.length := this
              simp only [List.length_cons]
              omega
            · simp [if_neg hw] at h
      · simp only [if_neg h2] at h
        by_cases h3 : c = '['
        · simp only [if_pos h3, Except.ok.injEq, Option.some.injEq] at h
          set pr := if r.head? = some '^' then (false, r.tail) else (true, r) with hpr
          have hpr2 : pr.2.length ≤ r.length := by
            rw [hpr]
            by_cases hc : r.head? = some '^'
            · simp only [if_pos hc]
              exact tailLenLe r
            · simp [if_neg hc]
          have h4 := takeUntilRB_length pr.2
          have h5 := applyQuantifier_length (RegexElement.CharGroup pr.1 (takeUntilRB pr.2).1)
            (takeUntilRB pr.2).2
          rw [h] at h5
          have h6 : rest.length ≤ (takeUntilRB pr.2).2.length := h5
          simp only [List.length_cons]
          omega
        · simp only [if_neg h3] at h
          by_cases h4 : c = '^'
          · simp only [if_pos h4, Except.ok.injEq, Option.some.injEq] at h
            have := applyQuantifier_length RegexElement.StartAnchor r
            rw [h] at this
            exact Nat.lt_succ_of_le this
          · simp only [if_neg h4] at h
            by_cases h5 : c = '$'
            · simp only [if_pos h5, Except.ok.injEq, Option.some.injEq] at h
              have := applyQuantifier_length RegexElement.EndAnchor r
              rw [h] at this
              exact Nat.lt_succ_of_le this
            · simp only [if_neg h5, Except.ok.injEq, Option.some.injEq] at h
              have := applyQuantifier_length (RegexElement.Literal c) r
              rw [h] at this
              exact Nat.lt_succ_of_le this

/-- The element-collection loop of the compiler: repeat read steps until the
pattern characters are exhausted, collecting elements in order; the first
error aborts. -/
def readAll (s : List Char) : Except CompileError (List RegexElement) :=
  match h : RegexElement.read s with
  | .error e => .error e
  | .ok none => .ok []
  | .ok (some (e, rest)) =>
    match readAll rest with
    | .error err => .error err
    | .ok l => .ok (e :: l)
termination_by s.length
decreasing_by exact read_length h

/-- The pattern compiler of the source: collect all elements and reject an
empty element sequence. -/
def Regex.fromStr (s : List Char) : Except CompileError (List RegexElement) :=
  match readAll s with
  | .error e => .error e
  | .ok l => if l.isEmpty then .error .EmptyPattern else .ok l

/-- End index reached after exactly k successive successful applications of a
content matcher m, starting from local index e0 and advancing by the matched
length of each repetition; none when fewer than k repetitions succeed. -/
def repsEnd (m : Nat → MRes) : Nat → Nat → Option Nat
  | e0, 0 => some e0
  | e0, k + 1 =>
    match m e0 with
    | .ok (some len) => repsEnd m (e0 + len) k
    | _ => none

/-- The four element kinds that consume exactly one character on success. -/
def isConsuming : RegexElement → Bool
  | .Wildcard => true
  | .Literal _ => true
  | .Class _ => true
  | .CharGroup _ _ => true
  | _ => false

/-- An element whose internal repetition loop, if any, has single-character
consuming content. -/
def tame : RegexElement → Bool
  | .Quantifier _ _ content => isConsuming content
  | _ => true

/-- The element matcher runs forever at the given input and offset: the model
reports out of fuel for every fuel value. -/
def elemDiverges (e : RegexElement) (full : List Char) (start : Nat) : Prop :=
  ∀ fuel, e.matches fuel full start = .diverge

/-- The top-level matcher runs forever at the given pattern and input. -/
def matchesDiverges (p : List RegexElement) (s : List Char) : Prop :=
  ∀ fuel, Regex.matches fuel p s = .diverge

/-- The quantifier-suffix skip on raw pattern characters: drop one leading
plus, star or question mark. -/
def skipQuant (r : List Char) : List Char :=
  if r.head? = some '+' then r.tail
  else if r.head? = some '*' then r.tail
  else if r.head? = some '?' then r.tail
  else r

/-- skipQuant never lengthens a list. -/
theorem skipQuant_length (r : List Char) : (skipQuant r).length ≤ r.length := by
  unfold skipQuant
  by_cases h1 : r.head? = some '+'
  · simp only [h1, if_pos rfl]
    exact tailLenLe r
  · simp only [if_neg h1]
    by_cases h2 : r.head? = some '*'
    · simp only [h2, if_pos rfl]
      exact tailLenLe r
    · simp only [if_neg h2]
      by_cases h3 : r.head? = some '?'
      · simp only [h3, if_pos rfl]
        exact tailLenLe r
      · simp [if_neg h3]

/-- The pattern characters remaining after a character-group body that starts
right after the opening bracket: drop an optional leading caret, then
everything up to and including the closing bracket. -/
def groupRemainder (rest : List Char) : List Char :=
  (takeUntilRB (if rest.head? = some '^' then rest.tail else rest)).2

/-- groupRemainder never lengthens a list. -/
theorem groupRemainder_length (rest : List Char) : (groupRemainder rest).length ≤ rest.length := by
  unfold groupRemainder
  have h2 := takeUntilRB_length (if rest.head? = some '^' then rest.tail else rest)
  have h3 : (if rest.head? = some '^' then rest.tail else rest).length ≤ rest.length := by
    by_cases hc : rest.head? = some '^'
    · simp only [hc, if_pos rfl]
      exact tailLenLe rest
    · simp [if_neg hc]
  omega

/-- Modelled from the claim wording for the compile-error conditions: scans
the pattern atom by atom (skipping quantifier suffixes and the bodies of
character groups) and reports the first backslash in atomic position that is
followed by a character other than d or w, or that ends the pattern. -/
def specScanError : List Char → Option CompileError
  | [] => none
  | c :: rest =>
    if c = '\\' then
      match rest with
      | [] => some .DanglingEscape
      | c2 :: r =>
        if c2 = 'd' ∨ c2 = 'w' then specScanError (skipQuant r)
        else some (.UnknownEscape c2)
    else if c = '[' then
      specScanError (skipQuant (groupRemainder rest))
    else specScanError (skipQuant rest)
termination_by s => s.length
decreasing_by
  all_goals simp only [List.length_cons]
  all_goals
    first
    | (have h1 := skipQuant_length r
       omega)
    | (have h1 := skipQuant_length (groupRemainder rest)
       have h2 := groupRemainder_length rest
       omega)
    | (have h1 := skipQuant_length rest
       omega)

/-- Modelled from the claim wording: compilation fails with EmptyPattern on an
empty pattern, and otherwise exactly when the atom scan finds a bad escape. -/
def specCompileError (s : List Char) : Option CompileError :=
  if s.isEmpty then some .EmptyPattern else specScanError s

/-- The whole string is the suffix at byte offset zero. -/
theorem strGet_zero (s : List Char) : strGet s 0 = some s := by
  cases s <;> rfl

/-- Character widths are positive. -/
theorem utf8SizePos (c : Char) : 0 < c.utf8Size := Char.utf8Size_pos c

/-- Suffix extraction composes: the suffix at offset j of the suffix at
offset i is the suffix at offset i plus j. -/
theorem strGet_compose :
    ∀ (s : List Char) (i : Nat) {t : List Char}, strGet s i = some t →
      ∀ (j : Nat) {u : List Char}, strGet t j = some u → strGet s (i + j) = some u := by
  intro s
  induction s with
  | nil =>
    intro i t h j u h2
    match i with
    | 0 =>
      simp only [strGet, Option.some.injEq] at h
      subst h
      simpa using h2
    | i + 1 => simp [strGet] at h
  | cons c rest ih =>
    intro i t h j u h2
    match i with
    | 0 =>
      simp only [strGet, Option.some.injEq] at h
      subst h
      simpa using h2
    | i + 1 =>
      simp only [strGet] at h
      by_cases hlt : i + 1 < c.utf8Size
      · simp [if_pos hlt] at h
      · simp only [if_neg hlt] at h
        have hle : c.utf8Size ≤ i + 1 := Nat.le_of_not_lt hlt
        have heq : i + 1 + j = (i + j) + 1 := by omega
        rw [heq]
        simp only [strGet]
        have hlt2 : ¬ (i + j + 1 < c.utf8Size) := by omega
        simp only [if_neg hlt2]
        have := ih (i + 1 - c.utf8Size) h j h2
        have heq2 : i + 1 - c.utf8Size + j = i + j + 1 - c.utf8Size := by omega
        rw [heq2] at this
        exact this

/-- A valid suffix accounts for the byte length: offset plus the byte length
of the suffix equals the byte length of the whole string. -/
theorem strGet_utf8Len :
    ∀ (s : List Char) (i : Nat) {t : List Char}, strGet s i = some t →
      i + utf8Len t = utf8Len s := by
  intro s
  induction s with
  | nil =>
    intro i t h
    match i with
    | 0 =>
      simp only [strGet, Option.some.injEq] at h
      subst h
      rfl
    | i + 1 => simp [strGet] at h
  | cons c rest ih =>
    intro i t h
    match i with
    | 0 =>
      simp only [strGet, Option.some.injEq] at h
      subst h
      exact Nat.zero_add _
    | i + 1 =>
      simp only [strGet] at h
      by_cases hlt : i + 1 < c.utf8Size
      · simp [if_pos hlt] at h
      · simp only [if_neg hlt] at h
        have hle : c.utf8Size ≤ i + 1 := Nat.le_of_not_lt hlt
        have := ih (i + 1 - c.utf8Size) h
        simp only [utf8Len]
        omega

/-- Beyond the byte length there is no suffix. -/
theorem strGet_none_of_gt :
    ∀ (s : List Char) (i : Nat), utf8Len s < i → strGet s i = none := by
  intro s
  induction s with
  | nil =>
    intro i h
    match i with
    | 0 => simp [utf8Len] at h
    | i + 1 => rfl
  | cons c rest ih =>
    intro i h
    match i with
    | 0 => simp [utf8Len] at h
    | i + 1 =>
      simp only [utf8Len] at h
      simp only [strGet]
      by_cases hlt : i + 1 < c.utf8Size
      · simp [if_pos hlt]
      · simp only [if_neg hlt]
        apply ih
        omega

/-- The empty string has a suffix only at offset zero. -/
theorem strGet_nil_isSome {i : Nat} (h : (strGet [] i).isSome = true) : i = 0 := by
  match i with
  | 0 => rfl
  | i + 1 => simp [strGet] at h

/-- A nonempty computed suffix really is the suffix at that offset. -/
theorem suffixAt_cons {full : List Char} {start : Nat} {c : Char} {t : List Char}
    (h : suffixAt full start = c :: t) : strGet full start = some (c :: t) := by
  unfold suffixAt at h
  match hg : strGet full start with
  | some s' => rw [hg] at h; simpa using h
  | none => rw [hg] at h; simp at h

/-- slice1 can only return a normal result of matched length one, and only on
a list whose head is a single-byte character. -/
theorem slice1_ok {l : List Char} {r : Option Nat} (h : slice1 l = .ok r) :
    r = some 1 ∧ ∃ c t, l = c :: t ∧ c.utf8Size = 1 := by
  match l with
  | [] => simp [slice1] at h
  | c :: t =>
    simp only [slice1] at h
    by_cases hc : c.utf8Size = 1
    · simp only [if_pos hc, MRes.ok.injEq] at h
      exact ⟨h.symm, c, t, rfl, hc⟩
    · simp [if_neg hc] at h

/-- slice1 never diverges. -/
theorem slice1_ne_diverge (l : List Char) : slice1 l ≠ .diverge := by
  match l with
  | [] => simp [slice1]
  | c :: t =>
    simp only [slice1]
    by_cases hc : c.utf8Size = 1
    · simp [if_pos hc]
    · simp [if_neg hc]

/-- A single-byte head makes byte offset one a boundary: the suffix at offset
one of a list headed by a one-byte character is its tail. -/
theorem strGet_one {c : Char} (t : List Char) (hc : c.utf8Size = 1) :
    strGet (c :: t) 1 = some t := by
  show strGet (c :: t) (0 + 1) = some t
  simp only [strGet, hc]
  norm_num
  exact strGet_zero t

/-- Every successful element match either has length zero or ends on a
character boundary of the input. -/
theorem matches_ok_some_boundary
    (e : RegexElement) (fuel : Nat) (full : List Char) (start len : Nat)
    (h : e.matches fuel full start = .ok (some len)) :
    len = 0 ∨ (strGet full (start + len)).isSome = true := by
  have consuming_case :
      ∀ (c : Char) (t : List Char), suffixAt full start = c :: t →
        slice1 (c :: t) = .ok (some len) →
        len = 0 ∨ (strGet full (start + len)).isSome = true := by
    intro c t hsuf hs
    obtain ⟨hr, c2, t2, heq, hsize⟩ := slice1_ok hs
    have hlen : len = 1 := by simpa using hr
    have hc2 : c2 = c := by
      have := heq
      simp only [List.cons.injEq] at this
      exact this.1.symm
    subst hc2
    have hg := suffixAt_cons hsuf
    have h1 : strGet (c2 :: t) 1 = some t := strGet_one t hsize
    right
    rw [hlen]
    rw [strGet_compose full start hg 1 h1]
    rfl
  cases e with
  | StartAnchor =>
    simp only [RegexElement.matches, MRes.ok.injEq] at h
    by_cases h0 : start = 0
    · rw [if_pos h0] at h
      left
      simpa using h.symm
    · rw [if_neg h0] at h
      simp at h
  | EndAnchor =>
    simp only [RegexElement.matches] at h
    match hsuf : suffixAt full start with
    | [] =>
      simp only [hsuf] at h
      simp only [MRes.ok.injEq, Option.some.injEq] at h
      left
      exact h.symm
    | c :: t =>
      simp only [hsuf] at h
      simp at h
  | Wildcard =>
    simp only [RegexElement.matches] at h
    match hsuf : suffixAt full start with
    | [] =>
      simp only [hsuf] at h
      simp at h
    | c :: t =>
      simp only [hsuf] at h
      exact consuming_case c t hsuf h
  | Literal ch =>
    simp only [RegexElement.matches] at h
    match hsuf : suffixAt full start with
    | [] =>
      simp only [hsuf] at h
      simp at h
    | c :: t =>
      simp only [hsuf] at h
      by_cases hc : c = ch
      · rw [if_pos hc] at h
        exact consuming_case c t hsuf h
      · rw [if_neg hc] at h
        simp at h
  | Class k =>
    simp only [RegexElement.matches] at h
    match hsuf : suffixAt full start with
    | [] =>
      simp only [hsuf] at h
      simp at h
    | c :: t =>
      simp only [hsuf] at h
      by_cases hc : classHolds k c = true
      · rw [if_pos hc] at h
        exact consuming_case c t hsuf h
      · rw [if_neg hc] at h
        simp at h
  | CharGroup pos opts =>
    simp only [RegexElement.matches] at h
    match hsuf : suffixAt full start with
    | [] =>
      simp only [hsuf] at h
      simp at h
    | c :: t =>
      simp only [hsuf] at h
      by_cases hc : opts.contains c = pos
      · rw [if_pos hc] at h
        exact consuming_case c t hsuf h
      · rw [if_neg hc] at h
        simp at h
  | Quantifier mn mx content =>
    simp only [RegexElement.matches] at h
    match hq : quantRun (fun i => content.matches fuel (suffixAt full start) i) mx fuel 0 0 with
    | .diverge =>
      simp only [hq] at h
      simp at h
    | .panic =>
      simp only [hq] at h
      simp at h
    | .done cnt e2 =>
      simp only [hq] at h
      by_cases hmn : mn ≤ cnt
      · rw [if_pos hmn] at h
        by_cases hb : (strGet (suffixAt full start) e2).isSome = true
        · rw [if_pos hb] at h
          simp only [MRes.ok.injEq, Option.some.injEq] at h
          subst h
          match hg : strGet full start with
          | some s2 =>
            unfold suffixAt at hb
            rw [hg] at hb
            simp only [Option.getD] at hb
            obtain ⟨u, hu⟩ := Option.isSome_iff_exists.mp hb
            right
            rw [strGet_compose full start hg e2 hu]
            rfl
          | none =>
            unfold suffixAt at hb
            rw [hg] at hb
            simp only [Option.getD] at hb
            left
            exact strGet_nil_isSome hb
        · rw [if_neg hb] at h
          simp at h
      · rw [if_neg hmn] at h
        simp at h

/-- If every successful step of a content matcher lands on a boundary (or has
length zero), the repetition loop keeps its end index on a boundary. -/
theorem quantRun_done_boundary (str : List Char) (m : Nat → MRes)
    (Hm : ∀ i len, m i = .ok (some len) → len = 0 ∨ (strGet str (i + len)).isSome = true)
    (mx : Option Nat) :
    ∀ (fuel c0 e0 cnt e : Nat), (strGet str e0).isSome = true →
      quantRun m mx fuel c0 e0 = .done cnt e → (strGet str e).isSome = true := by
  intro fuel
  induction fuel with
  | zero =>
    intro c0 e0 cnt e hb h
    simp [quantRun] at h
  | succ fuel ih =>
    intro c0 e0 cnt e hb h
    simp only [quantRun] at h
    match hm : m e0 with
    | .diverge => simp [hm] at h
    | .panic => simp [hm] at h
    | .ok none =>
      simp only [hm, QRes.done.injEq] at h
      rw [← h.2]
      exact hb
    | .ok (some len) =>
      simp only [hm] at h
      have hnext : (strGet str (e0 + len)).isSome = true := by
        rcases Hm e0 len hm with h0 | hs
        · rw [h0]
          simpa using hb
        · exact hs
      by_cases hmx : mx = some (c0 + 1)
      · simp only [if_pos hmx, QRes.done.injEq] at h
        rw [← h.2]
        exact hnext
      · simp only [if_neg hmx] at h
        exact ih (c0 + 1) (e0 + len) cnt e hnext h

/-- Full characterization of a normal exit of the repetition loop: the final
count dominates the initial count, the final end index is reached by exactly
the performed number of successful repetitions, the loop stopped only because
the content failed or the cap was hit, and the count respects a cap that was
not already violated on entry. -/
theorem quantRun_done_props (m : Nat → MRes) (mx : Option Nat) :
    ∀ (fuel c0 e0 cnt e : Nat), quantRun m mx fuel c0 e0 = .done cnt e →
      c0 ≤ cnt ∧ repsEnd m e0 (cnt - c0) = some e ∧
      (m e = .ok none ∨ mx = some cnt) ∧
      (∀ v, mx = some v → c0 < v → cnt ≤ v) := by
  intro fuel
  induction fuel with
  | zero =>
    intro c0 e0 cnt e h
    simp [quantRun] at h
  | succ fuel ih =>
    intro c0 e0 cnt e h
    simp only [quantRun] at h
    match hm : m e0 with
    | .diverge => simp [hm] at h
    | .panic => simp [hm] at h
    | .ok none =>
      simp only [hm, QRes.done.injEq] at h
      obtain ⟨h1, h2⟩ := h
      subst h1
      subst h2
      refine ⟨Nat.le_refl _, ?_, Or.inl hm, ?_⟩
      · simp [repsEnd]
      · intro v _ hv
        exact Nat.le_of_lt hv
    | .ok (some len) =>
      simp only [hm] at h
      by_cases hmx : mx = some (c0 + 1)
      · simp only [if_pos hmx, QRes.done.injEq] at h
        obtain ⟨h1, h2⟩ := h
        subst h1
        subst h2
        refine ⟨Nat.le_succ _, ?_, Or.inr hmx, ?_⟩
        · have : c0 + 1 - c0 = 1 := by omega
          rw [this]
          simp [repsEnd, hm]
        · intro v hv _
          rw [hmx] at hv
          simp only [Option.some.injEq] at hv
          omega
      · simp only [if_neg hmx] at h
        obtain ⟨ih1, ih2, ih3, ih4⟩ := ih (c0 + 1) (e0 + len) cnt e h
        refine ⟨by omega, ?_, ih3, ?_⟩
        · have hk : cnt - c0 = (cnt - (c0 + 1)) + 1 := by omega
          rw [hk]
          simp only [repsEnd, hm]
          exact ih2
        · intro v hv hlt
          have hne : v ≠ c0 + 1 := by
            intro hcontra
            rw [hcontra] at hv
            exact hmx hv
          exact ih4 v hv (by omega)

/-- When the content matcher reports a zero-length success at the current end
index and there is no cap, the repetition loop never exits: the end index
never moves, so the loop spins at the same position for any amount of
fuel. -/
theorem quantRun_diverge_zero (m : Nat → MRes) (e0 : Nat) (hm : m e0 = .ok (some 0)) :
    ∀ (fuel c0 : Nat), quantRun m none fuel c0 e0 = .diverge := by
  intro fuel
  induction fuel with
  | zero => intro c0; rfl
  | succ fuel ih =>
    intro c0
    simp only [quantRun, hm]
    have hmx : (none : Option Nat) ≠ some (c0 + 1) := by simp
    simp only [if_neg hmx]
    have : e0 + 0 = e0 := rfl
    rw [this]
    exact ih (c0 + 1)

/-- When every successful content step consumes exactly one byte and stays
inside the byte length bound L, the repetition loop exits within L plus one
iterations: with enough fuel it cannot diverge. -/
theorem quantRun_no_diverge (m : Nat → MRes) (mx : Option Nat) (L : Nat)
    (Hnd : ∀ i, m i ≠ .diverge)
    (Hadv : ∀ i len, m i = .ok (some len) → len = 1 ∧ i + 1 ≤ L) :
    ∀ (fuel c0 e0 : Nat), e0 ≤ L → L + 1 ≤ e0 + fuel →
      quantRun m mx fuel c0 e0 ≠ .diverge := by
  intro fuel
  induction fuel with
  | zero =>
    intro c0 e0 hle hfuel
    omega
  | succ fuel ih =>
    intro c0 e0 hle hfuel
    simp only [quantRun]
    match hm : m e0 with
    | .diverge => exact absurd hm (Hnd e0)
    | .panic => simp
    | .ok none => simp
    | .ok (some len) =>
      obtain ⟨hlen, hbound⟩ := Hadv e0 len hm
      subst hlen
      by_cases hmx : mx = some (c0 + 1)
      · simp [if_pos hmx]
      · simp only [if_neg hmx]
        exact ih (c0 + 1) (e0 + 1) hbound (by omega)

/-- A consuming element (literal, wildcard, class or character group) either
fails normally or produces exactly the result of slicing one byte off a
nonempty suffix. -/
theorem consuming_shape (e : RegexElement) (hc : isConsuming e = true)
    (fuel : Nat) (str : List Char) (i : Nat) :
    e.matches fuel str i = .ok none ∨
    ∃ c t, suffixAt str i = c :: t ∧ e.matches fuel str i = slice1 (c :: t) := by
  cases e with
  | Wildcard =>
    simp only [RegexElement.matches]
    match hsuf : suffixAt str i with
    | [] => left; rfl
    | c :: t => right; exact ⟨c, t, rfl, rfl⟩
  | Literal ch =>
    simp only [RegexElement.matches]
    match hsuf : suffixAt str i with
    | [] => left; rfl
    | c :: t =>
      by_cases hch : c = ch
      · right
        exact ⟨c, t, rfl, by simp only [if_pos hch]⟩
      · left
        simp only [if_neg hch]
  | Class k =>
    simp only [RegexElement.matches]
    match hsuf : suffixAt str i with
    | [] => left; rfl
    | c :: t =>
      by_cases hch : classHolds k c = true
      · right
        exact ⟨c, t, rfl, by simp only [if_pos hch]⟩
      · left
        simp only [if_neg hch]
  | CharGroup pos opts =>
    simp only [RegexElement.matches]
    match hsuf : suffixAt str i with
    | [] => left; rfl
    | c :: t =>
      by_cases hch : opts.contains c = pos
      · right
        exact ⟨c, t, rfl, by simp only [if_pos hch]⟩
      · left
        simp only [if_neg hch]
  | StartAnchor => simp [isConsuming] at hc
  | EndAnchor => simp [isConsuming] at hc
  | Quantifier mn mx content => simp [isConsuming] at hc

/-- A consuming element never diverges. -/
theorem consuming_no_diverge (e : RegexElement) (hc : isConsuming e = true)
    (fuel : Nat) (str : List Char) (i : Nat) : e.matches fuel str i ≠ .diverge := by
  rcases consuming_shape e hc fuel str i with h | ⟨c, t, _, h⟩
  · rw [h]
    simp
  · rw [h]
    exact slice1_ne_diverge (c :: t)

/-- A successful consuming match has length one and advances strictly inside
the byte length of the string. -/
theorem consuming_ok_some (e : RegexElement) (hc : isConsuming e = true)
    {fuel : Nat} {str : List Char} {i len : Nat}
    (h : e.matches fuel str i = .ok (some len)) : len = 1 ∧ i + 1 ≤ utf8Len str := by
  rcases consuming_shape e hc fuel str i with h2 | ⟨c, t, hsuf, h2⟩
  · rw [h2] at h
    simp at h
  · rw [h2] at h
    obtain ⟨hr, c2, t2, heq, hsize⟩ := slice1_ok h
    have hlen : len = 1 := by simpa using hr
    have hg := suffixAt_cons hsuf
    have htot := strGet_utf8Len str i hg
    have hpos := utf8SizePos c
    simp only [utf8Len] at htot
    exact ⟨hlen, by omega⟩

/-- The byte length of any suffix is at most the byte length of the whole
string. -/
theorem suffixAt_utf8Len_le (full : List Char) (start : Nat) :
    utf8Len (suffixAt full start) ≤ utf8Len full := by
  unfold suffixAt
  match hg : strGet full start with
  | some s2 =>
    have := strGet_utf8Len full start hg
    simp only [Option.getD]
    omega
  | none => simp [utf8Len]

/-- A tame element (one whose repetition content, if any, is consuming) never
diverges when given fuel exceeding the input byte length. -/
theorem tame_no_diverge (e : RegexElement) (ht : tame e = true)
    (full : List Char) (start : Nat) :
    e.matches (utf8Len full + 1) full start ≠ .diverge := by
  cases e with
  | StartAnchor =>
    simp only [RegexElement.matches]
    by_cases h0 : start = 0 <;> simp [h0]
  | EndAnchor =>
    simp only [RegexElement.matches]
    match hsuf : suffixAt full start with
    | [] => simp
    | c :: t => simp
  | Wildcard =>
    exact consuming_no_diverge .Wildcard rfl _ full start
  | Literal ch =>
    exact consuming_no_diverge (.Literal ch) rfl _ full start
  | Class k =>
    exact consuming_no_diverge (.Class k) rfl _ full start
  | CharGroup pos opts =>
    exact consuming_no_diverge (.CharGroup pos opts) rfl _ full start
  | Quantifier mn mx content =>
    have hcontent : isConsuming content = true := by
      simpa [tame] using ht
    simp only [RegexElement.matches]
    have hrun : quantRun (fun i => content.matches (utf8Len full + 1) (suffixAt full start) i)
        mx (utf8Len full + 1) 0 0 ≠ .diverge := by
      apply quantRun_no_diverge _ mx (utf8Len (suffixAt full start))
      · intro i
        exact consuming_no_diverge content hcontent _ _ i
      · intro i len hi
        exact consuming_ok_some content hcontent hi
      · exact Nat.zero_le _
      · have := suffixAt_utf8Len_le full start
        omega
    match hq : quantRun (fun i => content.matches (utf8Len full + 1) (suffixAt full start) i)
        mx (utf8Len full + 1) 0 0 with
    | .diverge => exact absurd hq hrun
    | .panic => simp
    | .done cnt e2 =>
      by_cases hmn : mn ≤ cnt
      · simp only [if_pos hmn]
        by_cases hb : (strGet (suffixAt full start) e2).isSome = true
        · simp [hb]
        · simp only [Bool.not_eq_true] at hb
          simp [hb]
      · simp [if_neg hmn]

/-- A sequence attempt over tame elements never diverges when given fuel
exceeding the input byte length. -/
theorem tryMatchFrom_no_diverge (s : List Char) :
    ∀ (p : List RegexElement), (∀ e ∈ p, tame e = true) →
      ∀ start, tryMatchFrom (utf8Len s + 1) s p start ≠ .diverge := by
  intro p
  induction p with
  | nil =>
    intro _ start
    simp [tryMatchFrom]
  | cons e rest ih =>
    intro hp start
    have he : tame e = true := hp e (List.mem_cons_self e rest)
    have hrest : ∀ e2 ∈ rest, tame e2 = true := fun e2 h2 => hp e2 (List.mem_cons_of_mem e h2)
    simp only [tryMatchFrom]
    match hm : e.matches (utf8Len s + 1) s (min start (utf8Len s)) with
    | .diverge => exact absurd hm (tame_no_diverge e he s (min start (utf8Len s)))
    | .panic => simp
    | .ok res =>
      by_cases hb : (strGet s start).isSome = true
      · simp only [if_pos hb]
        match res with
        | some len => exact ih hrest (start + len)
        | none => simp
      · simp only [Bool.not_eq_true] at hb
        simp [hb]

/-- The offset loop never diverges when no attempt diverges. -/
theorem searchAux_no_diverge (fuel : Nat) (p : List RegexElement) (s : List Char)
    (hnd : ∀ start, tryMatchFrom fuel s p start ≠ .diverge) :
    ∀ (k start : Nat), searchAux fuel p s start k ≠ .diverge := by
  intro k
  induction k with
  | zero =>
    intro start
    simp [searchAux]
  | succ k ih =>
    intro start
    simp only [searchAux]
    match hm : tryMatchFrom fuel s p start with
    | .diverge => exact absurd hm (hnd start)
    | .panic => simp
    | .ok true => simp
    | .ok false => exact ih (start + 1)

/-- When the offset loop returns a boolean, the boolean is true exactly when
some offset in the scanned window yields a successful attempt. -/
theorem searchAux_ok_iff (fuel : Nat) (p : List RegexElement) (s : List Char) :
    ∀ (k start : Nat) (b : Bool), searchAux fuel p s start k = .ok b →
      (b = true ↔ ∃ j, j < k ∧ tryMatchFrom fuel s p (start + j) = .ok true) := by
  intro k
  induction k with
  | zero =>
    intro start b h
    simp only [searchAux, BRes.ok.injEq] at h
    subst h
    simp
  | succ k ih =>
    intro start b h
    simp only [searchAux] at h
    match hm : tryMatchFrom fuel s p start with
    | .diverge => simp [hm] at h
    | .panic => simp [hm] at h
    | .ok true =>
      simp only [hm, BRes.ok.injEq] at h
      subst h
      simp only [true_iff]
      exact ⟨0, Nat.succ_pos k, by simpa using hm⟩
    | .ok false =>
      simp only [hm] at h
      have hiff := ih (start + 1) b h
      rw [hiff]
      constructor
      · rintro ⟨j, hj, hstep⟩
        refine ⟨j + 1, by omega, ?_⟩
        have : start + (j + 1) = start + 1 + j := by omega
        rw [this]
        exact hstep
      · rintro ⟨j, hj, hstep⟩
        match j with
        | 0 =>
          simp only [Nat.add_zero] at hstep
          rw [hstep] at hm
          simp at hm
        | j + 1 =>
          refine ⟨j, by omega, ?_⟩
          have : start + 1 + j = start + (j + 1) := by omega
          rw [this]
          exact hstep

/-- When the offset loop succeeds, the first successful offset in the scanned
window is found: all earlier offsets produced a normal failure. -/
theorem searchAux_ok_first (fuel : Nat) (p : List RegexElement) (s : List Char) :
    ∀ (k start : Nat), searchAux fuel p s start k = .ok true →
      ∃ j, j < k ∧ tryMatchFrom fuel s p (start + j) = .ok true ∧
        ∀ i, i < j → tryMatchFrom fuel s p (start + i) = .ok false := by
  intro k
  induction k with
  | zero =>
    intro start h
    simp [searchAux] at h
  | succ k ih =>
    intro start h
    simp only [searchAux] at h
    match hm : tryMatchFrom fuel s p start with
    | .diverge => simp [hm] at h
    | .panic => simp [hm] at h
    | .ok true =>
      refine ⟨0, Nat.succ_pos k, by simpa using hm, ?_⟩
      intro i hi
      omega
    | .ok false =>
      simp only [hm] at h
      obtain ⟨j, hj, hsucc, hfirst⟩ := ih (start + 1) h
      refine ⟨j + 1, by omega, ?_, ?_⟩
      · have : start + (j + 1) = start + 1 + j := by omega
        rw [this]
        exact hsucc
      · intro i hi
        match i with
        | 0 => simpa using hm
        | i + 1 =>
          have : start + (i + 1) = start + 1 + i := by omega
          rw [this]
          exact hfirst i (by omega)

/-- The collection loop on an exhausted pattern yields no elements. -/
theorem readAll_nil : readAll [] = .ok [] := by
  rw [readAll.eq_def]
  simp [RegexElement.read]

/-- A failing read step makes the whole collection fail with the same
error. -/
theorem readAll_error {s : List Char} {err : CompileError}
    (h : RegexElement.read s = .error err) : readAll s = .error err := by
  rw [readAll.eq_def]
  split
  · rename_i e2 heq
    rw [h] at heq
    injection heq with h2
    rw [h2]
  · rename_i heq
    rw [h] at heq
    exact Except.noConfusion heq
  · rename_i e2 rest heq
    rw [h] at heq
    exact Except.noConfusion heq

/-- A successful read step prepends its element to the collection of the
remaining characters. -/
theorem readAll_cons {s : List Char} {e1 : RegexElement} {rest : List Char}
    (h : RegexElement.read s = .ok (some (e1, rest))) :
    readAll s =
      match readAll rest with
      | .error err => .error err
      | .ok l => .ok (e1 :: l) := by
  rw [readAll.eq_def]
  split
  · rename_i e2 heq
    rw [h] at heq
    exact Except.noConfusion heq
  · rename_i heq
    rw [h] at heq
    injection heq with h2
    exact Option.noConfusion h2
  · rename_i e2 rest2 heq
    rw [h] at heq
    injection heq with h2
    injection h2 with h3
    injection h3 with h4 h5
    subst h4
    subst h5
    rfl

/-- Read step on a leading dot. -/
theorem read_dot (r : List Char) :
    RegexElement.read ('.' :: r) = .ok (some (applyQuantifier .Wildcard r)) := rfl

/-- Read step on a leading backslash. -/
theorem read_backslash (c2 : Char) (r : List Char) :
    RegexElement.read ('\\' :: c2 :: r) =
      (if c2 = 'd' then .ok (some (applyQuantifier (.Class .Digit) r))
       else if c2 = 'w' then .ok (some (applyQuantifier (.Class .Alphanumeric) r))
       else .error (.UnknownEscape c2)) := rfl

/-- Read step on a trailing backslash. -/
theorem read_backslash_nil : RegexElement.read ['\\'] = .error .DanglingEscape := rfl

/-- Read step on a leading opening bracket. -/
theorem read_lbracket (rest : List Char) :
    RegexElement.read ('[' :: rest) =
      .ok (some (applyQuantifier
        (.CharGroup (if rest.head? = some '^' then (false, rest.tail) else (true, rest)).1
          (takeUntilRB
            (if rest.head? = some '^' then (false, rest.tail) else (true, rest)).2).1)
        (takeUntilRB
          (if rest.head? = some '^' then (false, rest.tail) else (true, rest)).2).2)) := rfl

/-- Read step on a leading start-anchor character. -/
theorem read_caret (r : List Char) :
    RegexElement.read ('^' :: r) = .ok (some (applyQuantifier .StartAnchor r)) := rfl

/-- Read step on a leading end-anchor character. -/
theorem read_dollar (r : List Char) :
    RegexElement.read ('$' :: r) = .ok (some (applyQuantifier .EndAnchor r)) := rfl

/-- Read step on any other leading character: an ordinary literal. -/
theorem read_other {c : Char} (r : List Char) (h1 : c ≠ '.') (h2 : c ≠ '\\') (h3 : c ≠ '[')
    (h4 : c ≠ '^') (h5 : c ≠ '$') :
    RegexElement.read (c :: r) = .ok (some (applyQuantifier (.Literal c) r)) := by
  simp only [RegexElement.read, if_neg h1, if_neg h2, if_neg h3, if_neg h4, if_neg h5]

/-- The remaining characters after the quantifier-suffix peek are exactly the
input with one leading quantifier symbol removed. -/
theorem applyQuantifier_snd (a : RegexElement) (r : List Char) :
    (applyQuantifier a r).2 = skipQuant r := by
  unfold applyQuantifier skipQuant
  by_cases h1 : r.head? = some '+'
  · simp [h1]
  · simp only [if_neg h1]
    by_cases h2 : r.head? = some '*'
    · simp [h2]
    · simp only [if_neg h2]
      by_cases h3 : r.head? = some '?'
      · simp [h3]
      · simp [if_neg h3]

/-- The second component of the caret-detection pair. -/
theorem caretPair_snd (rest : List Char) :
    (if rest.head? = some '^' then (false, rest.tail) else (true, rest)).2 =
      (if rest.head? = some '^' then rest.tail else rest) := by
  by_cases h : rest.head? = some '^'
  · simp [h]
  · simp [h]

/-- A read step on a nonempty pattern never reports exhaustion. -/
theorem read_cons_ne_none (c : Char) (r : List Char) :
    RegexElement.read (c :: r) ≠ .ok none := by
  by_cases h1 : c = '.'
  · subst h1
    rw [read_dot]
    simp
  · by_cases h2 : c = '\\'
    · subst h2
      match r with
      | [] =>
        rw [read_backslash_nil]
        simp
      | c2 :: r2 =>
        rw [read_backslash]
        by_cases hd : c2 = 'd'
        · simp [hd]
        · by_cases hw : c2 = 'w'
          · simp [hd, hw]
          · simp [hd, hw]
    · by_cases h3 : c = '['
      · subst h3
        rw [read_lbracket]
        simp
      · by_cases h4 : c = '^'
        · subst h4
          rw [read_caret]
          simp
        · by_cases h5 : c = '$'
          · subst h5
            rw [read_dollar]
            simp
          · rw [read_other r h1 h2 h3 h4 h5]
            simp

/-- After a successful read step, the collection fails exactly when the
collection of the remaining characters fails, with the same error. -/
theorem readAll_cons_error_iff {s : List Char} {e1 : RegexElement} {rest : List Char}
    (h : RegexElement.read s = .ok (some (e1, rest))) (err : CompileError) :
    (readAll s = .error err ↔ readAll rest = .error err) := by
  rw [readAll_cons h]
  match hr : readAll rest with
  | .error e2 => simp
  | .ok l => simp

/-- Collecting from a nonempty pattern never yields an empty element list. -/
theorem readAll_cons_ne_nil {c : Char} {r : List Char} {l : List RegexElement}
    (h : readAll (c :: r) = .ok l) : l ≠ [] := by
  rw [readAll.eq_def] at h
  split at h
  · exact Except.noConfusion h
  · rename_i heq
    exact absurd heq (read_cons_ne_none c r)
  · rename_i e2 rest2 heq
    match hr : readAll rest2 with
    | .error e3 =>
      rw [hr] at h
      exact Except.noConfusion h
    | .ok l2 =>
      rw [hr] at h
      injection h with h2
      rw [← h2]
      simp

/-- The atom scan of an empty pattern finds nothing. -/
theorem specScan_nil : specScanError [] = none := by
  rw [specScanError.eq_def]

/-- One unfolding step of the atom scan. -/
theorem specScan_cons (c : Char) (rest : List Char) :
    specScanError (c :: rest) =
      (if c = '\\' then
        match rest with
        | [] => some .DanglingEscape
        | c2 :: r =>
          if c2 = 'd' ∨ c2 = 'w' then specScanError (skipQuant r)
          else some (.UnknownEscape c2)
      else if c = '[' then specScanError (skipQuant (groupRemainder rest))
      else specScanError (skipQuant rest)) := by
  rw [specScanError.eq_def]

/-- Eta form of the quantifier-suffix step, exposing the remaining characters
as a skipQuant application. -/
theorem applyQuantifier_eta (a : RegexElement) (r : List Char) :
    applyQuantifier a r = ((applyQuantifier a r).1, skipQuant r) := by
  rw [← applyQuantifier_snd]

/-- The group remainder written through takeUntilRB. -/
theorem groupRemainder_eq (rest : List Char) :
    (takeUntilRB (if rest.head? = some '^' then rest.tail else rest)).2 =
      groupRemainder rest := rfl

/-- The collection loop fails exactly when the atom scan finds a bad escape,
and with the same error. -/
theorem readAll_error_iff_scan :
    ∀ (n : Nat) (s : List Char), s.length ≤ n →
      ∀ err : CompileError, (readAll s = .error err ↔ specScanError s = some err) := by
  intro n
  induction n with
  | zero =>
    intro s hlen err
    match s with
    | [] =>
      rw [readAll_nil, specScan_nil]
      simp
    | c :: r => simp at hlen
  | succ n ih =>
    intro s hlen err
    match s with
    | [] =>
      rw [readAll_nil, specScan_nil]
      simp
    | c :: rest =>
      simp only [List.length_cons] at hlen
      rw [specScan_cons]
      by_cases h2 : c = '\\'
      · subst h2
        rw [if_pos rfl]
        match rest with
        | [] =>
          rw [readAll_error read_backslash_nil]
          constructor
          · intro h
            injection h with h3
            rw [h3]
          · intro h
            injection h with h3
            rw [h3]
        | c2 :: r2 =>
          simp only [List.length_cons] at hlen
          by_cases hd : c2 = 'd'
          · have hread : RegexElement.read ('\\' :: c2 :: r2) =
                .ok (some (applyQuantifier (.Class .Digit) r2)) := by
              rw [read_backslash, if_pos hd]
            rw [applyQuantifier_eta] at hread
            rw [readAll_cons_error_iff hread err]
            have hskip := skipQuant_length r2
            rw [ih (skipQuant r2) (by omega) err]
            simp [hd]
          · by_cases hw : c2 = 'w'
            · have hread : RegexElement.read ('\\' :: c2 :: r2) =
                  .ok (some (applyQuantifier (.Class .Alphanumeric) r2)) := by
                rw [read_backslash, if_neg hd, if_pos hw]
              rw [applyQuantifier_eta] at hread
              rw [readAll_cons_error_iff hread err]
              have hskip := skipQuant_length r2
              rw [ih (skipQuant r2) (by omega) err]
              simp [hd, hw]
            · have hread : RegexElement.read ('\\' :: c2 :: r2) =
                  .error (.UnknownEscape c2) := by
                rw [read_backslash, if_neg hd, if_neg hw]
              rw [readAll_error hread]
              have hor : ¬ (c2 = 'd' ∨ c2 = 'w') := by
                intro hcontra
                rcases hcontra with h3 | h3
                · exact hd h3
                · exact hw h3
              simp only [if_neg hor]
              constructor
              · intro h
                injection h with h3
                rw [h3]
              · intro h
                injection h with h3
                rw [h3]
      · rw [if_neg h2]
        by_cases h1 : c = '.'
        · subst h1
          have hne : ('.' : Char) ≠ '[' := by decide
          rw [if_neg hne]
          have hread := read_dot rest
          rw [applyQuantifier_eta] at hread
          rw [readAll_cons_error_iff hread err]
          have hskip := skipQuant_length rest
          exact ih (skipQuant rest) (by omega) err
        · by_cases h3 : c = '['
          · subst h3
            rw [if_pos rfl]
            have hread := read_lbracket rest
            rw [caretPair_snd, applyQuantifier_eta, groupRemainder_eq] at hread
            rw [readAll_cons_error_iff hread err]
            have hg := groupRemainder_length rest
            have hskip := skipQuant_length (groupRemainder rest)
            exact ih (skipQuant (groupRemainder rest)) (by omega) err
          · rw [if_neg h3]
            by_cases h4 : c = '^'
            · subst h4
              have hread := read_caret rest
              rw [applyQuantifier_eta] at hread
              rw [readAll_cons_error_iff hread err]
              have hskip := skipQuant_length rest
              exact ih (skipQuant rest) (by omega) err
            · by_cases h5 : c = '$'
              · subst h5
                have hread := read_dollar rest
                rw [applyQuantifier_eta] at hread
                rw [readAll_cons_error_iff hread err]
                have hskip := skipQuant_length rest
                exact ih (skipQuant rest) (by omega) err
              · have hread := read_other rest h1 h2 h3 h4 h5
                rw [applyQuantifier_eta] at hread
                rw [readAll_cons_error_iff hread err]
                have hskip := skipQuant_length rest
                exact ih (skipQuant rest) (by omega) err

/-- C6: compilation returns an error exactly when the pattern produces zero
elements (EmptyPattern, which happens precisely for the empty pattern
string), or a backslash read in atomic position outside a character group is
followed by a character other than d or w (UnknownEscape with that
character), or such a backslash ends the pattern (DanglingEscape); the first
failure aborts compilation with no partial pattern, since the error is the
entire result. -/
theorem C6_compile_error_iff (s : List Char) (err : CompileError) :
    Regex.fromStr s = .error err ↔ specCompileError s = some err := by
  match s with
  | [] =>
    simp [Regex.fromStr, readAll_nil, specCompileError]
  | c :: rest =>
    have hiff := readAll_error_iff_scan (c :: rest).length (c :: rest) (Nat.le_refl _)
    have hspec : specCompileError (c :: rest) = specScanError (c :: rest) := by
      simp [specCompileError]
    rw [hspec]
    match hr : readAll (c :: rest) with
    | .error e2 =>
      simp only [Regex.fromStr, hr]
      have hscan : specScanError (c :: rest) = some e2 := (hiff e2).mp hr
      rw [hscan]
      constructor
      · intro h
        injection h with h2
        rw [h2]
      · intro h
        injection h with h2
        rw [h2]
    | .ok l =>
      have hne : l ≠ [] := readAll_cons_ne_nil hr
      have hempty : l.isEmpty = false := by
        match l with
        | [] => exact absurd rfl hne
        | x :: xs => rfl
      simp only [Regex.fromStr, hr, hempty, Bool.false_eq_true, if_false]
      constructor
      · intro h
        exact Except.noConfusion h
      · intro h
        have := (hiff err).mpr h
        rw [hr] at this
        exact Except.noConfusion this

/-- Without a closing bracket, the group reader consumes the whole remainder
as options and leaves nothing. -/
theorem takeUntilRB_no_rb (l : List Char) (h : ']' ∉ l) : takeUntilRB l = (l, []) := by
  induction l with
  | nil => rfl
  | cons c r ih =>
    have hc : c ≠ ']' := by
      intro hc
      exact h (hc ▸ List.mem_cons_self c r)
    have hr : ']' ∉ r := fun hm => h (List.mem_cons_of_mem c hm)
    simp only [takeUntilRB, if_neg hc, ih hr]

/-- The quantifier-suffix peek on an exhausted pattern changes nothing. -/
theorem applyQuantifier_nil (a : RegexElement) : applyQuantifier a [] = (a, []) := rfl

/-- C7: a pattern whose opening bracket is never followed by a closing
bracket still compiles: the read step consumes every remaining character into
the options of the character group (after an optional leading caret choosing
the negated form) and leaves no remaining input, and whole-pattern
compilation succeeds with exactly that single group element. -/
theorem C7_unterminated_group (rest : List Char) (h : ']' ∉ rest) :
    RegexElement.read ('[' :: rest) =
      .ok (some ((if rest.head? = some '^' then RegexElement.CharGroup false rest.tail
                  else RegexElement.CharGroup true rest), [])) ∧
    Regex.fromStr ('[' :: rest) =
      .ok [if rest.head? = some '^' then RegexElement.CharGroup false rest.tail
           else RegexElement.CharGroup true rest] := by
  have hread : RegexElement.read ('[' :: rest) =
      .ok (some ((if rest.head? = some '^' then RegexElement.CharGroup false rest.tail
                  else RegexElement.CharGroup true rest), [])) := by
    rw [read_lbracket]
    by_cases hc : rest.head? = some '^'
    · have ht : ']' ∉ rest.tail := by
        intro hm
        exact h (List.mem_of_mem_tail hm)
      simp [hc, takeUntilRB_no_rb rest.tail ht, applyQuantifier]
    · simp [hc, takeUntilRB_no_rb rest h, applyQuantifier]
  refine ⟨hread, ?_⟩
  have hall := readAll_cons hread
  rw [readAll_nil] at hall
  simp only [Regex.fromStr, hall]
  rfl

/-- Witness for C7 at a concrete unterminated group pattern. -/
theorem C7_witness :
    RegexElement.read ['[', 'a', 'b'] = .ok (some (.CharGroup true ['a', 'b'], [])) ∧
    Regex.fromStr ['[', 'a', 'b'] = .ok [.CharGroup true ['a', 'b']] := by
  have h := C7_unterminated_group ['a', 'b'] (by decide)
  rw [if_neg (show ¬(List.head? ['a', 'b'] = some '^') by decide)] at h
  exact h

/-- C9 (amended): a quantifier symbol in atomic position at the start of the
pattern is read as an ordinary literal atom, never an error and never a
quantifier applied to a preceding element; the atom is then subject to the
usual suffix peek, so the first compiled element is that literal, wrapped in
a quantifier exactly when the next character is again a quantifier symbol. -/
theorem C9_leading_quantifier_literal (q : Char) (hq : q = '*' ∨ q = '+' ∨ q = '?')
    (rest : List Char) :
    RegexElement.read (q :: rest) = .ok (some (applyQuantifier (.Literal q) rest)) ∧
    ∀ p, Regex.fromStr (q :: rest) = .ok p →
      p.head? = some (applyQuantifier (.Literal q) rest).1 := by
  have hread : RegexElement.read (q :: rest) = .ok (some (applyQuantifier (.Literal q) rest)) := by
    rcases hq with h | h | h
    · subst h
      exact read_other rest (by decide) (by decide) (by decide) (by decide) (by decide)
    · subst h
      exact read_other rest (by decide) (by decide) (by decide) (by decide) (by decide)
    · subst h
      exact read_other rest (by decide) (by decide) (by decide) (by decide) (by decide)
  refine ⟨hread, ?_⟩
  intro p hp
  rw [applyQuantifier_eta] at hread
  have hall := readAll_cons hread
  match hr : readAll (skipQuant rest) with
  | .error e2 =>
    rw [hr] at hall
    simp only [Regex.fromStr, hall] at hp
    exact Except.noConfusion hp
  | .ok l2 =>
    rw [hr] at hall
    simp only [Regex.fromStr, hall] at hp
    simp only [List.isEmpty_cons, Bool.false_eq_true, if_false] at hp
    injection hp with hp2
    rw [← hp2]
    rfl

/-- C9 counterexample: a pattern of two stars compiles successfully, but its
first element is a quantifier wrapping the literal star, not the literal
itself. -/
theorem C9_counterexample :
    Regex.fromStr ['*', '*'] = .ok [.Quantifier 0 none (.Literal '*')] ∧
    RegexElement.Quantifier 0 none (.Literal '*') ≠ RegexElement.Literal '*' := by
  constructor
  · have h1 : RegexElement.read ['*', '*'] =
        .ok (some (.Quantifier 0 none (.Literal '*'), ([] : List Char))) := rfl
    have hall : readAll ['*', '*'] = .ok [.Quantifier 0 none (.Literal '*')] := by
      rw [readAll_cons h1, readAll_nil]
    simp only [Regex.fromStr, hall]
    rfl
  · simp

/-- Witness for C9 at a concrete pattern with a leading star. -/
theorem C9_witness :
    RegexElement.read ['*', 'a'] = .ok (some (applyQuantifier (.Literal '*') ['a'])) ∧
    List.head? [RegexElement.Literal '*', RegexElement.Literal 'a'] =
      some (applyQuantifier (.Literal '*') ['a']).1 := by
  have h := C9_leading_quantifier_literal '*' (Or.inl rfl) ['a']
  refine ⟨h.1, ?_⟩
  apply h.2
  have h1 : RegexElement.read ['*', 'a'] = .ok (some (.Literal '*', ['a'])) := rfl
  have h2 : RegexElement.read ['a'] = .ok (some (.Literal 'a', ([] : List Char))) := rfl
  have hall : readAll ['*', 'a'] = .ok [.Literal '*', .Literal 'a'] := by
    rw [readAll_cons h1, readAll_cons h2, readAll_nil]
  simp only [Regex.fromStr, hall]
  rfl

/-- C3: the element matcher is not panic free: matching the wildcard against
an input whose first character is multi-byte slices one byte out of a
two-byte character, which is a panic, contradicting the contract that the
matcher always returns normally. -/
theorem C3_wildcard_multibyte_panics :
    RegexElement.Wildcard.matches 1 ['é'] 0 = .panic := by decide

/-- C8 (amended): a character group matches one character exactly as the
membership test against its polarity dictates, provided the character at the
offset is a single byte wide: with an empty remaining suffix (offset at or
past the end, for both polarities) the group fails, and on a single-byte
character c it succeeds with length one precisely when the membership of c in
the options equals the polarity. -/
theorem C8_chargroup_characterization (pos : Bool) (opts : List Char)
    (fuel : Nat) (full : List Char) (start : Nat) :
    (suffixAt full start = [] →
      (RegexElement.CharGroup pos opts).matches fuel full start = .ok none) ∧
    (∀ c t, suffixAt full start = c :: t → c.utf8Size = 1 →
      (RegexElement.CharGroup pos opts).matches fuel full start =
        .ok (if opts.contains c = pos then some 1 else none)) := by
  constructor
  · intro hsuf
    simp only [RegexElement.matches, hsuf]
  · intro c t hsuf hsize
    simp only [RegexElement.matches, hsuf]
    by_cases hc : opts.contains c = pos
    · simp only [if_pos hc, slice1, hsize]
      rfl
    · simp only [if_neg hc]

/-- C8 counterexample: per the claim, a negated group on a character absent
from the options should succeed with length one; on a multi-byte character
the code panics instead. -/
theorem C8_counterexample :
    (RegexElement.CharGroup false ['a']).matches 1 ['é'] 0 = .panic := by decide

/-- Witness for C8 on single-byte inputs: the group matches its own character
and fails at the end of the input. -/
theorem C8_witness :
    (RegexElement.CharGroup true ['a']).matches 1 ['a', 'b'] 0 = .ok (some 1) ∧
    (RegexElement.CharGroup true ['a']).matches 1 ['a', 'b'] 2 = .ok none := by
  have h0 := C8_chargroup_characterization true ['a'] 1 ['a', 'b'] 0
  have h2 := C8_chargroup_characterization true ['a'] 1 ['a', 'b'] 2
  constructor
  · have := h0.2 'a' ['b'] (by decide) (by decide)
    rw [if_pos (by decide)] at this
    exact this
  · exact h2.1 (by decide)

/-- C10 (amended): at any byte offset strictly past the input byte length the
matcher sees an empty remaining slice rather than an out-of-range failure:
the end anchor still succeeds with a zero-length match, a min-zero quantifier
with consuming content still succeeds with a zero-length match, and every
consuming element fails normally.  A min-zero quantifier whose content
matches zero-width (such as a quantified anchor) instead loops forever there,
which is why the quantifier part is restricted to consuming content. -/
theorem C10_out_of_range (full : List Char) (start : Nat) (h : utf8Len full < start) :
    (∀ fuel, RegexElement.EndAnchor.matches fuel full start = .ok (some 0)) ∧
    (∀ e, isConsuming e = true → ∀ fuel, e.matches fuel full start = .ok none) ∧
    (∀ mx content, isConsuming content = true → ∀ fuel,
      (RegexElement.Quantifier 0 mx content).matches (fuel + 1) full start = .ok (some 0)) := by
  have hnone : strGet full start = none := strGet_none_of_gt full start h
  have hsuf : suffixAt full start = [] := by
    unfold suffixAt
    rw [hnone]
    rfl
  refine ⟨?_, ?_, ?_⟩
  · intro fuel
    simp only [RegexElement.matches, hsuf]
  · intro e he fuel
    rcases consuming_shape e he fuel full start with h2 | ⟨c, t, hc, h2⟩
    · exact h2
    · rw [hsuf] at hc
      exact absurd hc (by simp)
  · intro mx content hcontent fuel
    have hm0 : content.matches (fuel + 1) (suffixAt full start) 0 = .ok none := by
      rcases consuming_shape content hcontent (fuel + 1) (suffixAt full start) 0 with h2 | ⟨c, t, hc, h2⟩
      · exact h2
      · rw [hsuf] at hc
        have : suffixAt ([] : List Char) 0 = [] := rfl
        rw [this] at hc
        exact absurd hc (by simp)
    simp only [RegexElement.matches]
    have hrun : quantRun (fun i => content.matches (fuel + 1) (suffixAt full start) i)
        mx (fuel + 1) 0 0 = .done 0 0 := by
      simp only [quantRun, hm0]
    rw [hrun]
    simp only [Nat.le_refl, if_pos]
    rw [hsuf]
    simp [strGet]

/-- C10 counterexample: a min-zero unbounded quantifier over the end anchor,
at an offset past the end of the input, does not succeed with a zero-length
match as the claim states: it loops forever, because the anchor keeps
matching zero bytes at the same local position. -/
theorem C10_counterexample :
    elemDiverges (.Quantifier 0 none .EndAnchor) [] 1 := by
  intro fuel
  have hm : (fun i => RegexElement.EndAnchor.matches fuel (suffixAt [] 1) i) 0 =
      .ok (some 0) := rfl
  have hrun := quantRun_diverge_zero
    (fun i => RegexElement.EndAnchor.matches fuel (suffixAt [] 1) i) 0 hm fuel 0
  simp only [RegexElement.matches] at hrun ⊢
  rw [hrun]

/-- Witness for C10 at concrete out-of-range offsets. -/
theorem C10_witness :
    RegexElement.EndAnchor.matches 1 ['a'] 2 = .ok (some 0) ∧
    RegexElement.Wildcard.matches 1 ['a'] 2 = .ok none ∧
    (RegexElement.Quantifier 0 none (.Literal 'x')).matches 1 ['a'] 2 = .ok (some 0) := by
  have h := C10_out_of_range ['a'] 2 (by decide)
  exact ⟨h.1 1, h.2.1 .Wildcard rfl 1, h.2.2 none (.Literal 'x') rfl 0⟩

/-- C1 (amended): whenever the repetition loop of a quantifier returns (it
can instead loop forever on zero-width content) and the max, when present, is
at least one (as is true for every compiler-produced quantifier), the loop
has applied the content greedily: the final end index is reached by exactly
the performed number of successful repetitions each advancing by its matched
length, the loop stopped only because the content failed or the cap was
reached (never giving back consumed characters), the count never exceeds the
cap, and the element succeeds with the total consumed length precisely when
the count is at least min. -/
theorem C1_quantifier_greedy (mn : Nat) (mx : Option Nat) (content : RegexElement)
    (fuel : Nat) (full : List Char) (start cnt endIdx : Nat)
    (hmx : ∀ v, mx = some v → 1 ≤ v)
    (hrun : quantRun (fun i => content.matches fuel (suffixAt full start) i) mx fuel 0 0 =
      .done cnt endIdx) :
    repsEnd (fun i => content.matches fuel (suffixAt full start) i) 0 cnt = some endIdx ∧
    (∀ v, mx = some v → cnt ≤ v) ∧
    (content.matches fuel (suffixAt full start) endIdx = .ok none ∨ mx = some cnt) ∧
    (RegexElement.Quantifier mn mx content).matches fuel full start =
      .ok (if mn ≤ cnt then some endIdx else none) := by
  obtain ⟨h1, h2, h3, h4⟩ :=
    quantRun_done_props (fun i => content.matches fuel (suffixAt full start) i) mx
      fuel 0 0 cnt endIdx hrun
  have hb : (strGet (suffixAt full start) endIdx).isSome = true := by
    apply quantRun_done_boundary (suffixAt full start)
      (fun i => content.matches fuel (suffixAt full start) i) ?_ mx fuel 0 0 cnt endIdx ?_ hrun
    · intro i len hi
      exact matches_ok_some_boundary content fuel (suffixAt full start) i len hi
    · rw [strGet_zero]
      rfl
  refine ⟨by simpa using h2, ?_, h3, ?_⟩
  · intro v hv
    exact h4 v hv (hmx v hv)
  · simp only [RegexElement.matches, hrun]
    by_cases hmn : mn ≤ cnt
    · simp [hmn, hb]
    · simp [hmn]

/-- C1 counterexample: with max present but zero, the loop checks the cap
only after incrementing past it, so the engine reports success with one
repetition of the content even though max is zero: more than max
repetitions. -/
theorem C1_counterexample :
    quantRun (fun i => (RegexElement.Literal 'a').matches 10 (suffixAt ['a'] 0) i)
      (some 0) 10 0 0 = .done 1 1 ∧
    (RegexElement.Quantifier 0 (some 0) (.Literal 'a')).matches 10 ['a'] 0 = .ok (some 1) ∧
    ¬ (1 ≤ 0) := by
  refine ⟨by decide, by decide, by omega⟩

/-- Witness for C1 at a concrete question-mark quantifier. -/
theorem C1_witness :
    repsEnd (fun i => (RegexElement.Literal 'a').matches 10 (suffixAt ['a', 'a'] 0) i) 0 1 =
      some 1 ∧
    (RegexElement.Quantifier 0 (some 1) (.Literal 'a')).matches 10 ['a', 'a'] 0 =
      .ok (if 0 ≤ 1 then some 1 else none) := by
  have h := C1_quantifier_greedy 0 (some 1) (.Literal 'a') 10 ['a', 'a'] 0 1 1
    (fun v hv => by injection hv with h2; omega) (by decide)
  exact ⟨h.1, h.2.2.2⟩

/-- C5: for a pattern whose first element is the start anchor, the top-level
matcher returns true only when the whole sequence matches from offset zero,
because the start anchor itself matches (with length zero) exactly at offset
zero and fails at every positive offset. -/
theorem C5_start_anchor_exclusivity (rest : List RegexElement) (s : List Char) (fuel : Nat)
    (h : Regex.matches fuel (.StartAnchor :: rest) s = .ok true) :
    tryMatchFrom fuel s (.StartAnchor :: rest) 0 = .ok true ∧
    ∀ (full : List Char) (start fuel2 : Nat),
      RegexElement.StartAnchor.matches fuel2 full start =
        .ok (if start = 0 then some 0 else none) := by
  refine ⟨?_, fun full start fuel2 => rfl⟩
  unfold Regex.matches at h
  obtain ⟨j, hj, hsucc, _⟩ := searchAux_ok_first fuel (.StartAnchor :: rest) s (utf8Len s + 1) 0 h
  simp only [Nat.zero_add] at hsucc
  match hjc : j with
  | 0 => exact hsucc
  | j2 + 1 =>
    exfalso
    subst hjc
    simp only [tryMatchFrom] at hsucc
    by_cases hz : min (j2 + 1) (utf8Len s) = 0
    · have hlen0 : utf8Len s = 0 := by omega
      omega
    · have hanchor : RegexElement.StartAnchor.matches fuel s (min (j2 + 1) (utf8Len s)) =
          .ok none := by
        simp only [RegexElement.matches, if_neg hz]
      rw [hanchor] at hsucc
      by_cases hb : (strGet s (j2 + 1)).isSome = true
      · simp [hb] at hsucc
      · simp only [Bool.not_eq_true] at hb
        simp [hb] at hsucc

/-- Witness for C5 at a concrete anchored pattern. -/
theorem C5_witness :
    tryMatchFrom 1 ['a', 'b'] [RegexElement.StartAnchor, .Literal 'a'] 0 = .ok true ∧
    RegexElement.StartAnchor.matches 1 ['a', 'b'] 3 = .ok (if 3 = 0 then some 0 else none) := by
  have h := C5_start_anchor_exclusivity [.Literal 'a'] ['a', 'b'] 1 (by decide)
  exact ⟨h.1, h.2 ['a', 'b'] 3 1⟩

/-- C2 (amended): whenever the top-level matcher returns a boolean (it can
instead panic on an input with multi-byte characters, or run forever on a
pathological quantifier), the boolean is true exactly when some start offset
between zero and the input byte length inclusive yields a successful
in-order sequence match, and on success the offsets below the first
successful one all failed normally: offsets are tried in increasing order and
the search stops at the first success. -/
theorem C2_search_characterization (p : List RegexElement) (s : List Char) (fuel : Nat)
    (b : Bool) (h : Regex.matches fuel p s = .ok b) :
    (b = true ↔ ∃ i, i ≤ utf8Len s ∧ tryMatchFrom fuel s p i = .ok true) ∧
    (b = true → ∃ i, i ≤ utf8Len s ∧ tryMatchFrom fuel s p i = .ok true ∧
      ∀ j, j < i → tryMatchFrom fuel s p j = .ok false) := by
  unfold Regex.matches at h
  constructor
  · rw [searchAux_ok_iff fuel p s (utf8Len s + 1) 0 b h]
    constructor
    · rintro ⟨j, hj, hstep⟩
      refine ⟨j, by omega, ?_⟩
      simpa using hstep
    · rintro ⟨i, hi, hstep⟩
      refine ⟨i, by omega, ?_⟩
      simpa using hstep
  · intro hb
    subst hb
    obtain ⟨j, hj, hsucc, hfirst⟩ := searchAux_ok_first fuel p s (utf8Len s + 1) 0 h
    refine ⟨j, by omega, by simpa using hsucc, ?_⟩
    intro i hi
    have := hfirst i hi
    simpa using this

/-- C2 counterexample: on an input consisting of one two-byte character and a
pattern that matches nowhere, the top-level matcher should return false per
the claim; instead the trace slice at the mid-character offset panics. -/
theorem C2_counterexample :
    Regex.matches 10 [RegexElement.Literal 'z'] ['é'] = .panic := by decide

/-- Witness for C2 at a concrete pattern and input. -/
theorem C2_witness :
    Regex.matches 5 [RegexElement.Literal 'b'] ['a', 'b'] = .ok true ∧
    (true = true ↔ ∃ i, i ≤ utf8Len ['a', 'b'] ∧
      tryMatchFrom 5 ['a', 'b'] [RegexElement.Literal 'b'] i = .ok true) := by
  refine ⟨by decide, ?_⟩
  exact (C2_search_characterization [.Literal 'b'] ['a', 'b'] 5 true (by decide)).1

/-- C4 (amended): matching terminates for every pattern in which each
quantifier has single-character consuming content (literal, wildcard, class
or character group), with fuel one beyond the input byte length: the offset
loop is bounded by the input length and each repetition loop advances one
byte per iteration inside the input.  A compilable pattern quantifying a
zero-width anchor with no cap escapes this class and genuinely loops
forever. -/
theorem C4_termination_tame (p : List RegexElement) (s : List Char)
    (hp : ∀ e ∈ p, tame e = true) :
    Regex.matches (utf8Len s + 1) p s ≠ .diverge := by
  unfold Regex.matches
  exact searchAux_no_diverge _ p s (tryMatchFrom_no_diverge s p hp) (utf8Len s + 1) 0

/-- C4 counterexample: the pattern of a quantified start anchor compiles, and
matching it against the empty input runs the repetition loop forever: the
matcher diverges at every fuel bound. -/
theorem C4_counterexample :
    Regex.fromStr ['^', '*'] = .ok [.Quantifier 0 none .StartAnchor] ∧
    matchesDiverges [.Quantifier 0 none .StartAnchor] [] := by
  constructor
  · have h1 : RegexElement.read ['^', '*'] =
        .ok (some (.Quantifier 0 none .StartAnchor, ([] : List Char))) := rfl
    have hall : readAll ['^', '*'] = .ok [.Quantifier 0 none .StartAnchor] := by
      rw [readAll_cons h1, readAll_nil]
    simp only [Regex.fromStr, hall]
    rfl
  · intro fuel
    have hm : (fun i => RegexElement.StartAnchor.matches fuel (suffixAt [] 0) i) 0 =
        .ok (some 0) := rfl
    have hrun := quantRun_diverge_zero
      (fun i => RegexElement.StartAnchor.matches fuel (suffixAt [] 0) i) 0 hm fuel 0
    have helem : (RegexElement.Quantifier 0 none .StartAnchor).matches fuel [] 0 = .diverge := by
      simp only [RegexElement.matches] at hrun ⊢
      rw [hrun]
    have htry : tryMatchFrom fuel [] [RegexElement.Quantifier 0 none .StartAnchor] 0 =
        .diverge := by
      simp only [tryMatchFrom]
      rw [show min 0 (utf8Len ([] : List Char)) = 0 from rfl, helem]
    unfold Regex.matches
    rw [show utf8Len ([] : List Char) + 1 = 1 from rfl]
    simp only [searchAux]
    rw [htry]

/-- Witness for C4 at a concrete consuming-quantifier pattern. -/
theorem C4_witness :
    Regex.matches (utf8Len ['a', 'a', 'b'] + 1)
      [RegexElement.Quantifier 1 none (.Literal 'a'), .Literal 'b'] ['a', 'a', 'b'] ≠
      .diverge := by
  exact C4_termination_tame [.Quantifier 1 none (.Literal 'a'), .Literal 'b'] ['a', 'a', 'b']
    (by decide)

/-- Witness for C6 at a concrete bad-escape pattern and a concrete good
pattern. -/
theorem C6_witness :
    Regex.fromStr ['\\', 'q'] = .error (.UnknownEscape 'q') ∧
    ¬ Regex.fromStr ['a'] = .error .EmptyPattern := by
  constructor
  · apply (C6_compile_error_iff ['\\', 'q'] (.UnknownEscape 'q')).mpr
    have h1 : specCompileError ['\\', 'q'] = specScanError ['\\', 'q'] := by
      simp [specCompileError]
    rw [h1, specScan_cons]
    simp [show ¬ ('q' = 'd' ∨ 'q' = 'w') from by decide]
  · intro h
    have h2 := (C6_compile_error_iff ['a'] .EmptyPattern).mp h
    have h3 : specCompileError ['a'] = specScanError ['a'] := by
      simp [specCompileError]
    rw [h3, specScan_cons] at h2
    simp [skipQuant, specScan_nil] at h2
